import Mathlib

/-!
Verification of the prediction-serving core of the
automated-documentation-system repository.

The central code is `PredictionEngine.generatePredictions`,
`PredictionCore.processPredictions` (refined orchestrator) and the initial
`PredictionCore.generatePredictions`, together with the design-level
components (PredictionCache, ModelRegistry, Evaluator verdict policy) whose
implementations are not present in the source tree and are therefore
modelled from the specification text where a claim depends on them.
-/

/-! ## Embedding of `PredictionEngine.generatePredictions` (part_003, lines 101-124)

The collaborators (`featureProcessor`, `inferenceEngine`, `postProcessor`)
are abstract fields in the source; they are modelled as an arbitrary record
of pure functions.  The cache is used by the source only through
`cache.get(features)` and `cache.set(features, processedPredictions)`:
note the key passed to the cache is the feature vector alone — the model
version is not part of the key at this call site. -/

structure EngineOps (Data Feat Model Raw Pred : Type) where
  processFeatures : Data → Feat
  infer : Feat → Model → Raw
  postProcess : Raw → Pred

/-- The prediction cache as the source uses it: an association from the
feature vector (the only key the call site supplies) to a prediction. -/
abbrev EngineCache (Feat Pred : Type) := List (Feat × Pred)

def cacheGet {Feat Pred : Type} [DecidableEq Feat]
    (cache : EngineCache Feat Pred) (f : Feat) : Option Pred :=
  (cache.find? (fun e => e.1 = f)).map (·.2)

/-- Shallow embedding of `PredictionEngine.generatePredictions`:
process features, check the cache and return the hit if any, otherwise
run inference, post-process, store under the features and return.
The two counters record how many times `inferenceEngine.infer` and
`postProcessor.process` were invoked during the call. -/
def generatePredictions {Data Feat Model Raw Pred : Type} [DecidableEq Feat]
    (ops : EngineOps Data Feat Model Raw Pred)
    (data : Data) (model : Model) (cache : EngineCache Feat Pred) :
    Pred × EngineCache Feat Pred × Nat × Nat :=
  let features := ops.processFeatures data
  match cacheGet cache features with
  | some cached => (cached, cache, 0, 0)
  | none =>
      let rawPredictions := ops.infer features model
      let processedPredictions := ops.postProcess rawPredictions
      (processedPredictions, (features, processedPredictions) :: cache, 1, 1)

/-- Cache states reachable by running `generatePredictions` any number of
times starting from the empty cache. -/
inductive EngineReach {Data Feat Model Raw Pred : Type} [DecidableEq Feat]
    (ops : EngineOps Data Feat Model Raw Pred) :
    EngineCache Feat Pred → Prop where
  | empty : EngineReach ops []
  | step (data : Data) (model : Model) (cache : EngineCache Feat Pred) :
      EngineReach ops cache →
      EngineReach ops (generatePredictions ops data model cache).2.1

/-- Claim C9: when the cache holds a value for the processed features,
`generatePredictions` returns that cached value with the cache unchanged,
zero invocations of the inference engine and zero invocations of the
post-processor (hence no write to the cache and no model-state change). -/
theorem C9_cache_hit_frame {Data Feat Model Raw Pred : Type} [DecidableEq Feat]
    (ops : EngineOps Data Feat Model Raw Pred)
    (data : Data) (model : Model) (cache : EngineCache Feat Pred) (p : Pred)
    (hhit : cacheGet cache (ops.processFeatures data) = some p) :
    generatePredictions ops data model cache = (p, cache, 0, 0) := by
  unfold generatePredictions
  simp only [hhit]

/-- Witness for C9 at a concrete hit. -/
theorem C9_cache_hit_frame_witness :
    cacheGet [((3 : Nat), (5 : Nat))] ((fun _ => 3) ()) = some 5 ∧
    generatePredictions
      (⟨fun _ => 3, fun f m => f + m, fun r => r⟩ :
        EngineOps Unit Nat Nat Nat Nat) () 2 [(3, 5)] = (5, [(3, 5)], 0, 0) :=
  ⟨by decide,
   C9_cache_hit_frame
     (⟨fun _ => 3, fun f m => f + m, fun r => r⟩ :
       EngineOps Unit Nat Nat Nat Nat) () 2 [(3, 5)] 5 (by decide)⟩

/-- Claim C10: every value stored in the cache by `generatePredictions`
(starting from the empty cache) is the post-processed image of a raw
inference output for the stored feature vector — never a raw prediction. -/
theorem C10_cache_values_postprocessed {Data Feat Model Raw Pred : Type}
    [DecidableEq Feat] (ops : EngineOps Data Feat Model Raw Pred)
    (cache : EngineCache Feat Pred) (hreach : EngineReach ops cache) :
    ∀ e ∈ cache, ∃ m : Model, e.2 = ops.postProcess (ops.infer e.1 m) := by
  induction hreach with
  | empty => intro e he; cases he
  | step data model cache _ ih =>
      intro e he
      simp only [generatePredictions] at he
      rcases hc : cacheGet cache (ops.processFeatures data) with _ | cached <;>
        simp only [hc, List.mem_cons] at he
      · rcases he with he | he
        · exact ⟨model, by rw [he]⟩
        · exact ih e he
      · exact ih e he

/-- Concrete collaborators for the C10 witness run. -/
def c10ops : EngineOps Unit Nat Nat Nat Nat :=
  ⟨fun _ => 3, fun f m => f + m, fun r => r * 2⟩

/-- Witness for C10 at the single entry of a one-step reachable cache. -/
theorem C10_cache_values_postprocessed_witness :
    ((3 : Nat), (14 : Nat)) ∈ (generatePredictions c10ops () 4 []).2.1 ∧
    ∃ m : Nat, ((3, 14) : Nat × Nat).2 =
      c10ops.postProcess (c10ops.infer ((3, 14) : Nat × Nat).1 m) :=
  ⟨by decide,
   C10_cache_values_postprocessed c10ops _
     (EngineReach.step () 4 [] EngineReach.empty) (3, 14) (by decide)⟩

/-! ## Claim C2: cache keying across model versions

The source keys the cache by the feature vector alone
(`this.cache.get(features)` / `this.cache.set(features, ...)`), so a
request repeated after switching the active model from version 1 to
version 2 is a cache *hit* that serves the version-1 prediction with no
inference against version 2.  Concrete run demonstrating it: -/

/-- Concrete collaborators: the raw and final prediction record the
(feature, model-version) pair that produced them, so staleness is visible. -/
def c2ops : EngineOps Unit Nat Nat (Nat × Nat) (Nat × Nat) :=
  ⟨fun _ => 7, fun f m => (f, m), fun r => r⟩

/-- Claim C2 fails on the code: after the first request is served and
cached under model version 1, repeating the identical request under the
promoted version 2 is a cache hit that returns the version-1 prediction
with zero inference calls, while a fresh inference against version 2
would produce a different prediction. -/
theorem C2_stale_cache_served_after_promotion :
    (generatePredictions c2ops () 1 []).2.1 = [(7, (7, 1))] ∧
    generatePredictions c2ops () 2 [(7, (7, 1))] = ((7, 1), [(7, (7, 1))], 0, 0) ∧
    c2ops.postProcess (c2ops.infer (c2ops.processFeatures ()) 2) = (7, 2) ∧
    ((7, 1) : Nat × Nat) ≠ (7, 2) := by
  refine ⟨?_, ?_, rfl, by decide⟩
  · rfl
  · rfl

/-! ## Claim C3: Evaluator threshold policy -/

inductive Verdict where
  | PASS
  | DEGRADED
  | FAIL
deriving DecidableEq

/-- Per-metric thresholds as the configuration surface declares them:
`evaluation.thresholds{metric→{warning,critical}}`. -/
structure MetricThresholds where
  warning : ℚ
  critical : ℚ

/-- Modelled from the spec: the verdict computation of `Evaluator.evaluate`
is absent from src/ (the evaluator delegates to an unimplemented
`reportGenerator`).  A quality-metric score breaches a threshold when it
falls below it. -/
def breachesCritical (t : MetricThresholds) (score : ℚ) : Bool :=
  score < t.critical

/-- Modelled from the spec: warning-threshold breach. -/
def breachesWarning (t : MetricThresholds) (score : ℚ) : Bool :=
  score < t.warning

/-- Modelled from the spec: `the overall verdict is FAIL if any metric
breaches its critical threshold, DEGRADED if any breaches warning only,
PASS otherwise`.  A batch is the list of (score, thresholds) pairs. -/
def overallVerdict (batch : List (ℚ × MetricThresholds)) : Verdict :=
  if batch.any (fun m => breachesCritical m.2 m.1) then .FAIL
  else if batch.any (fun m => breachesWarning m.2 m.1) then .DEGRADED
  else .PASS

/-- The spec's first evaluator scenario: accuracy 0.80 against
{warning 0.85, critical 0.75} is DEGRADED. -/
theorem verdict_scenario_degraded :
    overallVerdict [(80/100, ⟨85/100, 75/100⟩)] = Verdict.DEGRADED := by
  norm_num [overallVerdict, breachesCritical, breachesWarning,
    List.any_cons, List.any_nil]

/-- The spec's second evaluator scenario: accuracy 0.70 against
{warning 0.85, critical 0.75} is FAIL. -/
theorem verdict_scenario_fail :
    overallVerdict [(70/100, ⟨85/100, 75/100⟩)] = Verdict.FAIL := by
  norm_num [overallVerdict, breachesCritical, breachesWarning,
    List.any_cons, List.any_nil]

/-- Claim C3: the overall verdict is FAIL iff some metric breaches its
critical threshold, DEGRADED iff some metric breaches only its warning
threshold, PASS otherwise; accuracy 0.80 against thresholds
{warning 0.85, critical 0.75} yields DEGRADED and accuracy 0.70 yields
FAIL. -/
theorem C3_verdict_policy :
    (∀ batch : List (ℚ × MetricThresholds),
      (overallVerdict batch = Verdict.FAIL ↔
        ∃ m ∈ batch, breachesCritical m.2 m.1 = true) ∧
      (overallVerdict batch = Verdict.DEGRADED ↔
        (¬ ∃ m ∈ batch, breachesCritical m.2 m.1 = true) ∧
          ∃ m ∈ batch, breachesWarning m.2 m.1 = true) ∧
      (overallVerdict batch = Verdict.PASS ↔
        (¬ ∃ m ∈ batch, breachesCritical m.2 m.1 = true) ∧
          ¬ ∃ m ∈ batch, breachesWarning m.2 m.1 = true)) ∧
    overallVerdict [(80/100, ⟨85/100, 75/100⟩)] = Verdict.DEGRADED ∧
    overallVerdict [(70/100, ⟨85/100, 75/100⟩)] = Verdict.FAIL := by
  refine ⟨fun batch => ?_, verdict_scenario_degraded, verdict_scenario_fail⟩
  simp only [overallVerdict]
  split_ifs with h1 h2 <;> simp only [List.any_eq_true] at * <;> simp_all

/-! ## Claim C4: optimization gating

The refined orchestrator (`PredictionCore.processPredictions`, part_003)
guards the optimizer behind `requiresOptimization`, whose body does not
exist anywhere in the source; the initial orchestrator
(`PredictionCore.generatePredictions`, part_005, lines 147-158) invokes
`this.optimizer.optimize(evaluation)` unconditionally on every cycle. -/

structure InitialCoreOps (Data Preds Evaln OptSt : Type) where
  predict : Data → Preds
  evaluate : Preds → Evaln
  optimize : Evaln → OptSt → OptSt

/-- Shallow embedding of the initial `PredictionCore.generatePredictions`
(part_005): predict, evaluate, then `await this.optimizer.optimize(...)`
with no condition on the evaluation verdict.  The optimizer state is
threaded explicitly so invocations are observable. -/
def initialGeneratePredictions {Data Preds Evaln OptSt : Type}
    (ops : InitialCoreOps Data Preds Evaln OptSt)
    (data : Data) (opt : OptSt) : Preds × OptSt :=
  let predictions := ops.predict data
  let evaluation := ops.evaluate predictions
  let opt2 := ops.optimize evaluation opt
  (predictions, opt2)

/-- Concrete instance for C4: the evaluation of the cycle is the spec's own
single-DEGRADED scenario (accuracy 0.80 against {warning 0.85,
critical 0.75}); the optimizer state counts optimization runs. -/
def c4ops : InitialCoreOps Unit Unit Verdict Nat :=
  ⟨fun _ => (),
   fun _ => overallVerdict [(80/100, ⟨85/100, 75/100⟩)],
   fun _ n => n + 1⟩

/-- Claim C4 fails on the code: in the initial
`PredictionCore.generatePredictions`, a cycle whose evaluation verdict is
a single DEGRADED (with no prior DEGRADED cycles, optimizer-run count 0)
still invokes `Optimizer.optimize` — the run count goes from 0 to 1. -/
theorem C4_optimize_invoked_on_single_degraded :
    c4ops.evaluate (c4ops.predict ()) = Verdict.DEGRADED ∧
    initialGeneratePredictions c4ops () 0 = ((), 1) := by
  exact ⟨verdict_scenario_degraded, rfl⟩

/-! ## Claim C5: optimizer errors and the in-flight request -/

structure PredictionResults (Pred Evaln Model : Type) where
  predictions : Pred
  evaluation : Evaln
  modelInfo : Model
deriving DecidableEq

structure CoreOps (Data Feat Model Raw Pred Evaln Err : Type) where
  engine : EngineOps Data Feat Model Raw Pred
  evaluate : Pred → Evaln
  requiresOptimization : Evaln → Bool
  optimizeModel : Model → Evaln → Except Err Unit

/-- Shallow embedding of `PredictionCore.processPredictions` (part_003,
lines 23-38): fetch the current model (passed in as `model`), generate
predictions, evaluate, and when `requiresOptimization` holds, `await` the
optimizer with no surrounding try/catch, so a rejection propagates out of
`processPredictions` and the request's promise rejects. -/
def processPredictions {Data Feat Model Raw Pred Evaln Err : Type}
    [DecidableEq Feat]
    (ops : CoreOps Data Feat Model Raw Pred Evaln Err)
    (data : Data) (model : Model) (cache : EngineCache Feat Pred) :
    Except Err (PredictionResults Pred Evaln Model × EngineCache Feat Pred) :=
  let r := generatePredictions ops.engine data model cache
  let predictions := r.1
  let evaluation := ops.evaluate predictions
  if ops.requiresOptimization evaluation then
    match ops.optimizeModel model evaluation with
    | .error e => .error e
    | .ok _ => .ok (⟨predictions, evaluation, model⟩, r.2.1)
  else
    .ok (⟨predictions, evaluation, model⟩, r.2.1)

/-- Concrete instance for C5: the evaluation verdict is FAIL, optimization
is required, and the optimizer rejects. -/
def c5ops : CoreOps Unit Nat Nat Nat Nat Verdict Unit :=
  ⟨⟨fun _ => 3, fun f m => f + m, fun r => r⟩,
   fun _ => Verdict.FAIL,
   fun v => v = Verdict.FAIL,
   fun _ _ => .error ()⟩

/-- Claim C5 fails on the code: the prediction for the request is computed
successfully (value 4 against the active model version 1), yet because the
triggered optimizer rejects, `processPredictions` returns the optimizer's
error — the in-flight prediction request fails instead of returning the
prediction. -/
theorem C5_optimizer_error_fails_request :
    (generatePredictions c5ops.engine () 1 []).1 = 4 ∧
    processPredictions c5ops () 1 [] = .error () := by
  exact ⟨rfl, rfl⟩

/-! ## Claim C6: determinism and purity of `infer` -/

/-- Modelled from the spec: the data a model version carries for inference
(the implementation of `InferenceEngine.infer` is absent from src/, only
its call site exists).  The spec makes `infer` `a pure function from
(features, model version) to a raw prediction; the only component that
runs the model`. -/
structure ModelData where
  id : Nat
  weights : List Int
deriving DecidableEq

/-- Modelled from the spec: `InferenceEngine.infer` executes the model —
here a linear scoring pass of the feature values against the version's
weights — and tags the raw prediction with the producing version id. -/
def infer (features : List Int) (model : ModelData) : Int × Nat :=
  ((features.zip model.weights).foldl (fun acc p => acc + p.1 * p.2) 0,
   model.id)

/-- Two sequential invocations of `infer` threaded through an arbitrary
ambient state `s`: since `infer` is a function of its arguments alone, the
state is passed through untouched. -/
def runInferTwice {σ : Type} (features : List Int) (model : ModelData)
    (s : σ) : ((Int × Nat) × (Int × Nat)) × σ :=
  let r1 := (infer features model, s)
  let r2 := (infer features model, r1.2)
  ((r1.1, r2.1), r2.2)

/-- Claim C6: `infer` is deterministic — two invocations on the same
(features, model version) pair yield identical output — and effect-free:
running it twice leaves any ambient state unchanged and both runs return
the same raw prediction. -/
theorem C6_infer_deterministic :
    ∀ (f : List Int) (v : ModelData) (σ : Type) (s : σ),
      infer f v = infer f v ∧
      (runInferTwice f v s).1.1 = (runInferTwice f v s).1.2 ∧
      (runInferTwice f v s).2 = s :=
  fun _ _ _ _ => ⟨rfl, rfl, rfl⟩

/-! ## Claim C7: cache capacity bound and time-to-live

Modelled from the spec: the internals of `PredictionCache` are absent from
src/ (the engine config only fixes `maxSize` and `ttl`).  The spec
prescribes bounded capacity with least-recently-used eviction, expiry
after a configured time-to-live regardless of recency, lazy enforcement on
write and opportunistic enforcement on read.  The entry list is kept in
recency order, most recently used first, so LRU eviction drops from the
tail. -/

structure CacheConfig where
  maxEntries : Nat
  ttl : Nat

structure CacheEntry (K V : Type) where
  key : K
  value : V
  insertedAt : Nat
  lastAccess : Nat
deriving DecidableEq

abbrev TtlCache (K V : Type) := List (CacheEntry K V)

/-- An entry inserted at time t is expired at any time after `t + ttl`. -/
def entryExpired {K V : Type} (cfg : CacheConfig) (now : Nat)
    (e : CacheEntry K V) : Bool :=
  e.insertedAt + cfg.ttl < now

/-- Modelled from the spec: cache read.  A present, unexpired entry is
returned and moved to the front (recency update); an expired entry is
dropped opportunistically and the read misses. -/
def ttlGet {K V : Type} [DecidableEq K] (cfg : CacheConfig) (now : Nat)
    (k : K) (c : TtlCache K V) : Option V × TtlCache K V :=
  match c.find? (fun e => e.key == k) with
  | none => (none, c)
  | some e =>
      if entryExpired cfg now e then
        (none, c.filter (fun e2 => !(e2.key == k)))
      else
        (some e.value,
         { e with lastAccess := now } :: c.filter (fun e2 => !(e2.key == k)))

/-- Modelled from the spec: cache write.  Expired entries are evicted
lazily, any previous entry for the key is replaced, the fresh entry goes
to the front, and the least-recently-used tail is truncated to
`maxEntries`. -/
def ttlSet {K V : Type} [DecidableEq K] (cfg : CacheConfig) (now : Nat)
    (k : K) (v : V) (c : TtlCache K V) : TtlCache K V :=
  let cleaned := (c.filter (fun e => !entryExpired cfg now e)).filter
    (fun e => !(e.key == k))
  (⟨k, v, now, now⟩ :: cleaned).take cfg.maxEntries

/-- Cache states reachable from the empty cache by reads and writes at
arbitrary times. -/
inductive CacheReach {K V : Type} [DecidableEq K] (cfg : CacheConfig) :
    TtlCache K V → Prop where
  | empty : CacheReach cfg []
  | get (now : Nat) (k : K) (c : TtlCache K V) :
      CacheReach cfg c → CacheReach cfg (ttlGet cfg now k c).2
  | set (now : Nat) (k : K) (v : V) (c : TtlCache K V) :
      CacheReach cfg c → CacheReach cfg (ttlSet cfg now k v c)

/-- A read never grows the cache. -/
theorem ttlGet_length_le {K V : Type} [DecidableEq K] (cfg : CacheConfig)
    (now : Nat) (k : K) (c : TtlCache K V) :
    (ttlGet cfg now k c).2.length ≤ c.length := by
  unfold ttlGet
  rcases hf : c.find? (fun e => e.key == k) with _ | e <;> simp only [hf]
  · exact Nat.le_refl _
  · have hmem : e ∈ c := List.mem_of_find?_eq_some hf
    have hkey := List.find?_some hf
    have hlt : (c.filter (fun e2 => !(e2.key == k))).length < c.length := by
      rw [List.length_filter_lt_length_iff_exists]
      exact ⟨e, hmem, by simp [hkey]⟩
    split_ifs
    · exact Nat.le_of_lt hlt
    · simp only [List.length_cons]
      exact hlt


/-- Every reachable cache state respects the capacity bound. -/
theorem cacheReach_length_le {K V : Type} [DecidableEq K]
    (cfg : CacheConfig) (c : TtlCache K V) (h : CacheReach cfg c) :
    c.length ≤ cfg.maxEntries := by
  induction h with
  | empty => simp
  | get now k c hc ih => exact le_trans (ttlGet_length_le cfg now k c) ih
  | set now k v c hc ih =>
      simp only [ttlSet, List.length_take]
      exact Nat.min_le_left _ _

/-- A successful read is always backed by an entry that is still within
its time-to-live: a value is never served after `insertedAt + ttl`. -/
theorem ttlGet_some_within_ttl {K V : Type} [DecidableEq K]
    (cfg : CacheConfig) (now : Nat) (k : K) (c : TtlCache K V) (v : V)
    (h : (ttlGet cfg now k c).1 = some v) :
    ∃ e ∈ c, e.key = k ∧ e.value = v ∧ now ≤ e.insertedAt + cfg.ttl := by
  unfold ttlGet at h
  rcases hf : c.find? (fun e => e.key == k) with _ | e <;> simp only [hf] at h
  · cases h
  · have hmem : e ∈ c := List.mem_of_find?_eq_some hf
    have hkey := List.find?_some hf
    split_ifs at h with hexp
    refine ⟨e, hmem, eq_of_beq hkey, ?_, ?_⟩
    · have hsome : some e.value = some v := h
      exact Option.some.inj hsome
    · unfold entryExpired at hexp
      simp only [decide_eq_true_eq] at hexp
      exact Nat.le_of_not_lt hexp

/-- Claim C7: in every reachable cache state the number of entries never
exceeds `maxEntries`, and a lookup never returns an entry whose
time-to-live has elapsed — whenever a lookup at time `now` returns a
value, the backing entry satisfies `now ≤ insertedAt + ttl`. -/
theorem C7_cache_bounds {K V : Type} [DecidableEq K]
    (cfg : CacheConfig) (c : TtlCache K V) (hreach : CacheReach cfg c) :
    c.length ≤ cfg.maxEntries ∧
    ∀ (now : Nat) (k : K) (v : V),
      (ttlGet cfg now k c).1 = some v →
      ∃ e ∈ c, e.key = k ∧ e.value = v ∧ now ≤ e.insertedAt + cfg.ttl :=
  ⟨cacheReach_length_le cfg c hreach,
   fun now k v h => ttlGet_some_within_ttl cfg now k c v h⟩

/-- Witness for C7 at a concrete reachable state: one write at time 0 into
a cache bounded at two entries with a ttl of 10; the capacity bound holds,
and a lookup at time 20 (after expiry) misses. -/
theorem C7_cache_bounds_witness :
    (ttlSet ⟨2, 10⟩ 0 (1 : Nat) (5 : Nat) []).length ≤ 2 ∧
    (ttlGet ⟨2, 10⟩ 20 1 (ttlSet ⟨2, 10⟩ 0 (1 : Nat) (5 : Nat) [])).1 = none :=
  ⟨(C7_cache_bounds ⟨2, 10⟩ _ (CacheReach.set 0 1 5 [] CacheReach.empty)).1,
   by decide⟩

/-! ## Claim C8: model registry lifecycle

Modelled from the spec: the ModelRegistry's lifecycle state (statuses
CANDIDATE / ACTIVE / RETIRED, the active pointer, `proposeCandidate`,
`promote`, `rollback`) is absent from src/ — `ModelManager` in the source
only delegates to an unimplemented version controller and model store. -/

inductive ModelStatus where
  | CANDIDATE
  | ACTIVE
  | RETIRED
deriving DecidableEq

structure RegVersion where
  id : Nat
  status : ModelStatus
  passedEval : Bool
deriving DecidableEq

structure Registry where
  versions : List RegVersion
  activeId : Nat
  nextId : Nat
deriving DecidableEq

inductive RegError where
  | UnknownVersionError
  | PromotionRejectedError
deriving DecidableEq

/-- Initial bootstrap: a single ACTIVE version with id 0. -/
def regInit : Registry := ⟨[⟨0, ModelStatus.ACTIVE, true⟩], 0, 1⟩

/-- Modelled from the spec: `proposeCandidate` registers a new CANDIDATE
version under a fresh id; serving is unaffected. -/
def proposeCandidate (r : Registry) (passedEval : Bool) : Registry :=
  ⟨⟨r.nextId, ModelStatus.CANDIDATE, passedEval⟩ :: r.versions,
   r.activeId, r.nextId + 1⟩

/-- The status rewrite performed by a promotion or rollback: the target id
becomes ACTIVE and any previously ACTIVE version becomes RETIRED. -/
def swapActive (versions : List RegVersion) (newId : Nat) : List RegVersion :=
  versions.map (fun w =>
    if w.id = newId then { w with status := ModelStatus.ACTIVE }
    else if w.status = ModelStatus.ACTIVE then
      { w with status := ModelStatus.RETIRED }
    else w)

/-- Modelled from the spec: `promote(candidateId)` atomically swaps the
active pointer to the candidate and demotes the previous active version to
RETIRED; it fails with UnknownVersionError when the id does not exist or
is not CANDIDATE, and with PromotionRejectedError when no passing
evaluation is attached. -/
def promote (r : Registry) (candidateId : Nat) : Except RegError Registry :=
  match r.versions.find? (fun v => v.id == candidateId) with
  | none => Except.error RegError.UnknownVersionError
  | some v =>
      if v.status ≠ ModelStatus.CANDIDATE then
        Except.error RegError.UnknownVersionError
      else if !v.passedEval then
        Except.error RegError.PromotionRejectedError
      else
        Except.ok ⟨swapActive r.versions candidateId, candidateId, r.nextId⟩

/-- Modelled from the spec: `rollback(toVersionId)` re-activates a RETIRED
version, demoting the currently active one. -/
def rollback (r : Registry) (toVersionId : Nat) : Except RegError Registry :=
  match r.versions.find? (fun v => v.id == toVersionId) with
  | none => Except.error RegError.UnknownVersionError
  | some v =>
      if v.status ≠ ModelStatus.RETIRED then
        Except.error RegError.UnknownVersionError
      else
        Except.ok ⟨swapActive r.versions toVersionId, toVersionId, r.nextId⟩

/-- Registry well-formedness: version ids are distinct and below the
fresh-id counter, exactly one version is ACTIVE, and the ACTIVE version is
the one the active pointer designates. -/
structure RegWF (r : Registry) : Prop where
  idsNodup : (r.versions.map RegVersion.id).Nodup
  idsBound : ∀ v ∈ r.versions, v.id < r.nextId
  oneActive : r.versions.countP (fun v => v.status == ModelStatus.ACTIVE) = 1
  activePtr : ∀ v ∈ r.versions, v.status = ModelStatus.ACTIVE → v.id = r.activeId

/-- Registry states reachable from the bootstrap registry by proposing,
promoting and rolling back. -/
inductive RegReach : Registry → Prop where
  | start : RegReach regInit
  | propose (passedEval : Bool) (r : Registry) :
      RegReach r → RegReach (proposeCandidate r passedEval)
  | promote_ok (cid : Nat) (r r2 : Registry) :
      RegReach r → promote r cid = Except.ok r2 → RegReach r2
  | rollback_ok (vid : Nat) (r r2 : Registry) :
      RegReach r → rollback r vid = Except.ok r2 → RegReach r2

/-- `swapActive` leaves every version's id unchanged. -/
theorem swapActive_map_id (versions : List RegVersion) (newId : Nat) :
    (swapActive versions newId).map RegVersion.id =
      versions.map RegVersion.id := by
  unfold swapActive
  rw [List.map_map]
  refine List.map_congr_left ?_
  intro w _
  by_cases h1 : w.id = newId <;> by_cases h2 : w.status = ModelStatus.ACTIVE <;>
    simp [h1, h2]

/-- After `swapActive versions newId`, a version is ACTIVE exactly when its
id is `newId`; with distinct ids and `newId` present, the ACTIVE count is
one. -/
theorem swapActive_oneActive (versions : List RegVersion) (newId : Nat)
    (hnd : (versions.map RegVersion.id).Nodup)
    (hmem : ∃ v ∈ versions, v.id = newId) :
    (swapActive versions newId).countP
      (fun v => v.status == ModelStatus.ACTIVE) = 1 := by
  unfold swapActive
  rw [List.countP_map]
  have hpt : versions.countP
      ((fun v => v.status == ModelStatus.ACTIVE) ∘ (fun w =>
        if w.id = newId then { w with status := ModelStatus.ACTIVE }
        else if w.status = ModelStatus.ACTIVE then
          { w with status := ModelStatus.RETIRED }
        else w)) = versions.countP (fun w => w.id == newId) := by
    refine List.countP_congr ?_
    intro w _
    by_cases h1 : w.id = newId <;> by_cases h2 : w.status = ModelStatus.ACTIVE <;>
      simp [Function.comp, h1, h2]
  rw [hpt]
  have hcnt : versions.countP (fun w => w.id == newId) =
      (versions.map RegVersion.id).count newId := by
    rw [List.count, List.countP_map]
    rfl
  rw [hcnt]
  obtain ⟨v, hv, hvid⟩ := hmem
  exact List.count_eq_one_of_mem hnd (hvid ▸ List.mem_map_of_mem RegVersion.id hv)

/-- After `swapActive`, only the version with the new id is ACTIVE. -/
theorem swapActive_activePtr (versions : List RegVersion) (newId : Nat) :
    ∀ w ∈ swapActive versions newId,
      w.status = ModelStatus.ACTIVE → w.id = newId := by
  intro w hw hact
  unfold swapActive at hw
  rw [List.mem_map] at hw
  obtain ⟨x, hx, rfl⟩ := hw
  by_cases h1 : x.id = newId
  · simp [h1]
  · by_cases h2 : x.status = ModelStatus.ACTIVE <;> simp [h1, h2] at hact

/-- The bootstrap registry is well-formed. -/
theorem regWF_init : RegWF regInit := by
  refine ⟨?_, ?_, ?_, ?_⟩ <;> decide

/-- Proposing a candidate preserves well-formedness. -/
theorem regWF_propose (r : Registry) (p : Bool) (h : RegWF r) :
    RegWF (proposeCandidate r p) := by
  obtain ⟨hnd, hbd, hone, hptr⟩ := h
  refine ⟨?_, ?_, ?_, ?_⟩
  · simp only [proposeCandidate, List.map_cons]
    rw [List.nodup_cons]
    refine ⟨?_, hnd⟩
    intro hmemb
    rw [List.mem_map] at hmemb
    obtain ⟨v, hv, hvid⟩ := hmemb
    exact absurd hvid (Nat.ne_of_lt (hbd v hv))
  · intro v hv
    simp only [proposeCandidate, List.mem_cons] at hv
    rcases hv with rfl | hv
    · exact Nat.lt_succ_self _
    · exact Nat.lt_trans (hbd v hv) (Nat.lt_succ_self _)
  · simp only [proposeCandidate]
    rw [List.countP_cons_of_neg]
    · exact hone
    · simp
  · intro v hv hact
    simp only [proposeCandidate, List.mem_cons] at hv
    rcases hv with rfl | hv
    · cases hact
    · exact hptr v hv hact

/-- Swapping the active version to an existing id preserves
well-formedness. -/
theorem regWF_swap (r : Registry) (newId : Nat) (h : RegWF r)
    (hmem : ∃ v ∈ r.versions, v.id = newId) :
    RegWF ⟨swapActive r.versions newId, newId, r.nextId⟩ := by
  obtain ⟨hnd, hbd, hone, hptr⟩ := h
  refine ⟨?_, ?_, ?_, ?_⟩
  · show (List.map RegVersion.id (swapActive r.versions newId)).Nodup
    rw [swapActive_map_id]
    exact hnd
  · intro v hv
    unfold swapActive at hv
    rw [List.mem_map] at hv
    obtain ⟨x, hx, rfl⟩ := hv
    have hid : (if x.id = newId then { x with status := ModelStatus.ACTIVE }
        else if x.status = ModelStatus.ACTIVE then
          { x with status := ModelStatus.RETIRED }
        else x).id = x.id := by
      by_cases h1 : x.id = newId <;> by_cases h2 : x.status = ModelStatus.ACTIVE <;>
        simp [h1, h2]
    show (if x.id = newId then { x with status := ModelStatus.ACTIVE }
        else if x.status = ModelStatus.ACTIVE then
          { x with status := ModelStatus.RETIRED }
        else x).id < r.nextId
    rw [hid]
    exact hbd x hx
  · exact swapActive_oneActive r.versions newId hnd hmem
  · intro v hv hact
    exact swapActive_activePtr r.versions newId v hv hact

/-- Inversion of a successful promotion: the target exists as a CANDIDATE
with the requested id, and the new registry is the status swap with the
active pointer on the candidate. -/
theorem promote_ok_inv (r : Registry) (cid : Nat) (r2 : Registry)
    (h : promote r cid = Except.ok r2) :
    (∃ v ∈ r.versions, v.id = cid ∧ v.status = ModelStatus.CANDIDATE) ∧
    r2 = ⟨swapActive r.versions cid, cid, r.nextId⟩ := by
  unfold promote at h
  rcases hf : r.versions.find? (fun v => v.id == cid) with _ | v <;>
    simp only [hf] at h
  · cases h
  · have hmem := List.mem_of_find?_eq_some hf
    have hid := List.find?_some hf
    split_ifs at h with h1 h2
    exact ⟨⟨v, hmem, eq_of_beq hid, not_not.mp h1⟩, (Except.ok.inj h).symm⟩

/-- Inversion of a successful rollback: the target exists as a RETIRED
version with the requested id, and the new registry is the status swap
with the active pointer on the target. -/
theorem rollback_ok_inv (r : Registry) (vid : Nat) (r2 : Registry)
    (h : rollback r vid = Except.ok r2) :
    (∃ v ∈ r.versions, v.id = vid ∧ v.status = ModelStatus.RETIRED) ∧
    r2 = ⟨swapActive r.versions vid, vid, r.nextId⟩ := by
  unfold rollback at h
  rcases hf : r.versions.find? (fun v => v.id == vid) with _ | v <;>
    simp only [hf] at h
  · cases h
  · have hmem := List.mem_of_find?_eq_some hf
    have hid := List.find?_some hf
    split_ifs at h with h1
    exact ⟨⟨v, hmem, eq_of_beq hid, not_not.mp h1⟩, (Except.ok.inj h).symm⟩

/-- Every reachable registry state is well-formed. -/
theorem regReach_wf (r : Registry) (h : RegReach r) : RegWF r := by
  induction h with
  | start => exact regWF_init
  | propose p r _ ih => exact regWF_propose r p ih
  | promote_ok cid r r2 _ hok ih =>
      obtain ⟨⟨v, hv, hvid, _⟩, rfl⟩ := promote_ok_inv r cid r2 hok
      exact regWF_swap r cid ih ⟨v, hv, hvid⟩
  | rollback_ok vid r r2 _ hok ih =>
      obtain ⟨⟨v, hv, hvid, _⟩, rfl⟩ := rollback_ok_inv r vid r2 hok
      exact regWF_swap r vid ih ⟨v, hv, hvid⟩

/-- Claim C8: in every reachable registry state exactly one version is
ACTIVE (and it is the one the active pointer designates), and a
successful `promote` swaps the active pointer to the candidate, marks the
candidate ACTIVE, demotes every previously ACTIVE version (necessarily a
different version) to RETIRED, and leaves exactly one ACTIVE version. -/
theorem C8_registry_active_invariant (r : Registry) (hreach : RegReach r) :
    r.versions.countP (fun v => v.status == ModelStatus.ACTIVE) = 1 ∧
    (∀ v ∈ r.versions, v.status = ModelStatus.ACTIVE → v.id = r.activeId) ∧
    ∀ (cid : Nat) (r2 : Registry), promote r cid = Except.ok r2 →
      r2.activeId = cid ∧
      (∀ w ∈ r.versions, w.id = cid →
        { w with status := ModelStatus.ACTIVE } ∈ r2.versions) ∧
      (∀ w ∈ r.versions, w.status = ModelStatus.ACTIVE →
        w.id ≠ cid ∧ { w with status := ModelStatus.RETIRED } ∈ r2.versions) ∧
      r2.versions.countP (fun v => v.status == ModelStatus.ACTIVE) = 1 := by
  have wf := regReach_wf r hreach
  refine ⟨wf.oneActive, wf.activePtr, ?_⟩
  intro cid r2 hok
  obtain ⟨⟨v, hv, hvid, hvstat⟩, rfl⟩ := promote_ok_inv r cid r2 hok
  refine ⟨rfl, ?_, ?_, ?_⟩
  · intro w hw hwid
    show { w with status := ModelStatus.ACTIVE } ∈ swapActive r.versions cid
    unfold swapActive
    have hfw : (if w.id = cid then { w with status := ModelStatus.ACTIVE }
        else if w.status = ModelStatus.ACTIVE then
          { w with status := ModelStatus.RETIRED }
        else w) = { w with status := ModelStatus.ACTIVE } := by
      simp [hwid]
    rw [← hfw]
    exact List.mem_map_of_mem _ hw
  · intro w hw hact
    have hne : w.id ≠ cid := by
      intro hwid
      have heq : w = v :=
        List.inj_on_of_nodup_map wf.idsNodup hw hv (by rw [hwid, hvid])
      have h2 : v.status = ModelStatus.ACTIVE := heq ▸ hact
      rw [hvstat] at h2
      cases h2
    refine ⟨hne, ?_⟩
    show { w with status := ModelStatus.RETIRED } ∈ swapActive r.versions cid
    unfold swapActive
    have hfw : (if w.id = cid then { w with status := ModelStatus.ACTIVE }
        else if w.status = ModelStatus.ACTIVE then
          { w with status := ModelStatus.RETIRED }
        else w) = { w with status := ModelStatus.RETIRED } := by
      simp [hne, hact]
    rw [← hfw]
    exact List.mem_map_of_mem _ hw
  · exact swapActive_oneActive r.versions cid wf.idsNodup ⟨v, hv, hvid⟩

/-- Witness for C8 at a concrete reachable registry: bootstrap plus one
proposed candidate; the ACTIVE count is one, and promoting candidate 1
moves the active pointer to 1. -/
theorem C8_registry_active_invariant_witness :
    (proposeCandidate regInit true).versions.countP
      (fun v => v.status == ModelStatus.ACTIVE) = 1 ∧
    (⟨[⟨1, ModelStatus.ACTIVE, true⟩, ⟨0, ModelStatus.RETIRED, true⟩], 1, 2⟩ :
      Registry).activeId = 1 :=
  ⟨(C8_registry_active_invariant _
      (RegReach.propose true regInit RegReach.start)).1,
   ((C8_registry_active_invariant _
      (RegReach.propose true regInit RegReach.start)).2.2 1 _ rfl).1⟩

/-! ## Claim C1: single-flight `getOrCompute`

Modelled from the spec: `PredictionCache.getOrCompute` does not exist in
src/.  The spec prescribes single-flight semantics: a caller that misses
registers the computation as in-flight before starting it; concurrent
callers for the same key await the in-flight computation and receive its
result when it resolves; the result is stored and later callers hit the
cache.  The model is an interleaving transition system over K concurrent
callers of one key: each caller is a small program counter, and the shared
state is the cached value for the key, the in-flight flag (the registered
promise), and a counter of invocations of the underlying compute
function.  `v0` stands for the value `computeFn key` produces. -/

inductive CallerPC (V : Type) where
  | start
  | awaiting
  | computing
  | done (v : V)
deriving DecidableEq

structure SFState (K : Nat) (V : Type) where
  cache : Option V
  inflight : Bool
  callers : Fin K → CallerPC V
  computeCount : Nat

/-- All K callers launched, nothing cached, no computation in flight. -/
def sfInit (K : Nat) (V : Type) : SFState K V :=
  ⟨none, false, fun _ => CallerPC.start, 0⟩

/-- Resolution of the in-flight promise: the completing caller `i` and
every awaiting caller receive the computed value. -/
def broadcast {K : Nat} {V : Type} (callers : Fin K → CallerPC V) (v : V)
    (i : Fin K) : Fin K → CallerPC V :=
  fun j =>
    if j = i then CallerPC.done v
    else
      match callers j with
      | CallerPC.awaiting => CallerPC.done v
      | pc => pc

/-- One interleaving step of the single-flight protocol. -/
inductive SFStep {K : Nat} {V : Type} (v0 : V) :
    SFState K V → SFState K V → Prop where
  | hit (c : Option V) (fl : Bool) (cs : Fin K → CallerPC V) (n : Nat)
      (i : Fin K) (v : V) :
      cs i = CallerPC.start → c = some v →
      SFStep v0 ⟨c, fl, cs, n⟩
        ⟨c, fl, Function.update cs i (CallerPC.done v), n⟩
  | joinWait (cs : Fin K → CallerPC V) (n : Nat) (i : Fin K) :
      cs i = CallerPC.start →
      SFStep v0 ⟨none, true, cs, n⟩
        ⟨none, true, Function.update cs i CallerPC.awaiting, n⟩
  | beginCompute (cs : Fin K → CallerPC V) (n : Nat) (i : Fin K) :
      cs i = CallerPC.start →
      SFStep v0 ⟨none, false, cs, n⟩
        ⟨none, true, Function.update cs i CallerPC.computing, n + 1⟩
  | complete (c : Option V) (fl : Bool) (cs : Fin K → CallerPC V) (n : Nat)
      (i : Fin K) :
      cs i = CallerPC.computing →
      SFStep v0 ⟨c, fl, cs, n⟩ ⟨some v0, false, broadcast cs v0 i, n⟩

/-- States reachable from the launch state. -/
inductive SFReach {K : Nat} {V : Type} (v0 : V) : SFState K V → Prop where
  | init : SFReach v0 (sfInit K V)
  | step (s s2 : SFState K V) :
      SFReach v0 s → SFStep v0 s s2 → SFReach v0 s2

/-- Inductive invariant of the single-flight protocol. -/
structure SFInv {K : Nat} {V : Type} (v0 : V) (s : SFState K V) : Prop where
  cacheVal : ∀ v, s.cache = some v → v = v0
  doneVal : ∀ i v, s.callers i = CallerPC.done v → v = v0
  doneCache : ∀ i v, s.callers i = CallerPC.done v → s.cache.isSome = true
  compCache : ∀ i, s.callers i = CallerPC.computing → s.cache = none
  inflightIff : s.inflight = true ↔ ∃ i, s.callers i = CallerPC.computing
  compUnique : ∀ i j, s.callers i = CallerPC.computing →
    s.callers j = CallerPC.computing → i = j
  countEq : s.computeCount =
    (if s.cache.isSome then 1 else 0) + (if s.inflight then 1 else 0)

/-- Updating a caller away from `computing`, starting from a caller not at
`computing`, leaves the set of computing callers unchanged. -/
theorem update_computing_at {K : Nat} {V : Type} (cs : Fin K → CallerPC V)
    (i : Fin K) (pc : CallerPC V) (hold : cs i ≠ CallerPC.computing)
    (hnew : pc ≠ CallerPC.computing) (j : Fin K) :
    Function.update cs i pc j = CallerPC.computing ↔
      cs j = CallerPC.computing := by
  by_cases hji : j = i
  · subst hji
    rw [Function.update_same]
    exact ⟨fun h => absurd h hnew, fun h => absurd h hold⟩
  · rw [Function.update_noteq hji]

/-- The launch state satisfies the invariant. -/
theorem sfInv_init (K : Nat) (V : Type) (v0 : V) : SFInv v0 (sfInit K V) := by
  refine ⟨?_, ?_, ?_, ?_, ?_, ?_, ?_⟩ <;> simp [sfInit]

/-- The invariant is preserved by every step of the protocol. -/
theorem sfInv_step {K : Nat} {V : Type} (v0 : V) (s s2 : SFState K V)
    (hinv : SFInv v0 s) (hstep : SFStep v0 s s2) : SFInv v0 s2 := by
  cases hstep with
  | hit c fl cs n i v hstart hc =>
      obtain ⟨cacheVal, doneVal, doneCache, compCache, inflightIff,
        compUnique, countEq⟩ := hinv
      have hold : cs i ≠ CallerPC.computing := by
        rw [hstart]; intro h; cases h
      have hnew : (CallerPC.done v : CallerPC V) ≠ CallerPC.computing := by
        intro h; cases h
      refine ⟨cacheVal, ?_, ?_, ?_, ?_, ?_, countEq⟩
      all_goals dsimp only
      · intro j w hj
        by_cases hji : j = i
        · subst hji
          rw [Function.update_same] at hj
          injection hj with hw
          subst hw
          exact cacheVal v hc
        · rw [Function.update_noteq hji] at hj
          exact doneVal j w hj
      · intro j w _
        rw [hc]
        rfl
      · intro j hj
        rw [update_computing_at cs i _ hold hnew j] at hj
        exact compCache j hj
      · constructor
        · intro hfl
          obtain ⟨j, hj⟩ := inflightIff.mp hfl
          exact ⟨j, (update_computing_at cs i _ hold hnew j).mpr hj⟩
        · rintro ⟨j, hj⟩
          exact inflightIff.mpr ⟨j, (update_computing_at cs i _ hold hnew j).mp hj⟩
      · intro j k hj hk
        rw [update_computing_at cs i _ hold hnew] at hj hk
        exact compUnique j k hj hk
  | joinWait cs n i hstart =>
      obtain ⟨cacheVal, doneVal, doneCache, compCache, inflightIff,
        compUnique, countEq⟩ := hinv
      have hold : cs i ≠ CallerPC.computing := by
        rw [hstart]; intro h; cases h
      have hnew : (CallerPC.awaiting : CallerPC V) ≠ CallerPC.computing := by
        intro h; cases h
      refine ⟨cacheVal, ?_, ?_, ?_, ?_, ?_, countEq⟩
      all_goals dsimp only
      · intro j w hj
        by_cases hji : j = i
        · subst hji
          rw [Function.update_same] at hj
          cases hj
        · rw [Function.update_noteq hji] at hj
          exact doneVal j w hj
      · intro j w hj
        by_cases hji : j = i
        · subst hji
          rw [Function.update_same] at hj
          cases hj
        · rw [Function.update_noteq hji] at hj
          exact doneCache j w hj
      · intro j _
        rfl
      · constructor
        · intro hfl
          obtain ⟨j, hj⟩ := inflightIff.mp hfl
          exact ⟨j, (update_computing_at cs i _ hold hnew j).mpr hj⟩
        · rintro ⟨j, hj⟩
          exact inflightIff.mpr ⟨j, (update_computing_at cs i _ hold hnew j).mp hj⟩
      · intro j k hj hk
        rw [update_computing_at cs i _ hold hnew] at hj hk
        exact compUnique j k hj hk
  | beginCompute cs n i hstart =>
      obtain ⟨cacheVal, doneVal, doneCache, compCache, inflightIff,
        compUnique, countEq⟩ := hinv
      have hnone : ∀ j, cs j ≠ CallerPC.computing := by
        intro j hj
        exact absurd (inflightIff.mpr ⟨j, hj⟩) (by simp)
      have hn : n = 0 := by simpa using countEq
      refine ⟨cacheVal, ?_, ?_, ?_, ?_, ?_, ?_⟩
      all_goals dsimp only
      · intro j w hj
        by_cases hji : j = i
        · subst hji
          rw [Function.update_same] at hj
          cases hj
        · rw [Function.update_noteq hji] at hj
          exact doneVal j w hj
      · intro j w hj
        by_cases hji : j = i
        · subst hji
          rw [Function.update_same] at hj
          cases hj
        · rw [Function.update_noteq hji] at hj
          exact doneCache j w hj
      · intro j _
        rfl
      · constructor
        · intro _
          exact ⟨i, Function.update_same i CallerPC.computing cs⟩
        · intro _
          rfl
      · intro j k hj hk
        by_cases hji : j = i
        · by_cases hki : k = i
          · rw [hji, hki]
          · rw [Function.update_noteq hki] at hk
            exact absurd hk (hnone k)
        · rw [Function.update_noteq hji] at hj
          exact absurd hj (hnone j)
      · simp [hn]
  | complete c fl cs n i hcomp =>
      obtain ⟨cacheVal, doneVal, doneCache, compCache, inflightIff,
        compUnique, countEq⟩ := hinv
      have hcn : c = none := compCache i hcomp
      have hfl : fl = true := inflightIff.mpr ⟨i, hcomp⟩
      have hn : n = 1 := by
        rw [hcn, hfl] at countEq
        simpa using countEq
      have hpost : ∀ j, broadcast cs v0 i j ≠ CallerPC.computing := by
        intro j hj
        by_cases hji : j = i
        · subst hji
          simp only [broadcast, if_pos rfl] at hj
          cases hj
        · simp only [broadcast, if_neg hji] at hj
          rcases hcs : cs j with _ | _ | _ | w2 <;> rw [hcs] at hj
          · cases hj
          · cases hj
          · exact hji (compUnique j i hcs hcomp)
          · cases hj
      refine ⟨?_, ?_, ?_, ?_, ?_, ?_, ?_⟩
      all_goals dsimp only
      · intro v hv
        exact (Option.some.inj hv).symm
      · intro j w hj
        by_cases hji : j = i
        · subst hji
          simp only [broadcast, if_pos rfl] at hj
          injection hj with hw
          exact hw.symm
        · simp only [broadcast, if_neg hji] at hj
          rcases hcs : cs j with _ | _ | _ | w2 <;> rw [hcs] at hj
          · cases hj
          · injection hj with hw
            exact hw.symm
          · cases hj
          · injection hj with hw
            rw [← hw]
            exact doneVal j w2 hcs
      · intro j w _
        rfl
      · intro j hj
        exact absurd hj (hpost j)
      · constructor
        · intro h
          cases h
        · rintro ⟨j, hj⟩
          exact absurd hj (hpost j)
      · intro j k hj _
        exact absurd hj (hpost j)
      · simp [hn]

/-- Every reachable protocol state satisfies the invariant. -/
theorem sfInv_reach {K : Nat} {V : Type} (v0 : V) (s : SFState K V)
    (h : SFReach v0 s) : SFInv v0 s := by
  induction h with
  | init => exact sfInv_init K V v0
  | step s s2 _ hstep ih => exact sfInv_step v0 s s2 ih hstep

/-- Claim C1: for K concurrent `getOrCompute` callers (K ≥ 1) of the same
key launched while nothing is cached, in every reachable state where all
callers have finished, the underlying compute function has been invoked
exactly once and every caller received the value of that single in-flight
computation. -/
theorem C1_single_flight {K : Nat} {V : Type} (v0 : V) (hK : 1 ≤ K)
    (s : SFState K V) (hreach : SFReach v0 s)
    (hdone : ∀ i : Fin K, ∃ v, s.callers i = CallerPC.done v) :
    s.computeCount = 1 ∧ ∀ i v, s.callers i = CallerPC.done v → v = v0 := by
  have inv := sfInv_reach v0 s hreach
  obtain ⟨v, hv⟩ := hdone ⟨0, hK⟩
  have hsome : s.cache.isSome = true := inv.doneCache _ _ hv
  have hnofl : s.inflight = false := by
    cases hfl : s.inflight
    · rfl
    · exfalso
      obtain ⟨j, hj⟩ := inv.inflightIff.mp hfl
      obtain ⟨w, hw⟩ := hdone j
      rw [hj] at hw
      cases hw
  refine ⟨?_, inv.doneVal⟩
  rw [inv.countEq]
  simp [hsome, hnofl]

/-- The concrete one-caller demonstration: caller 0 has registered the
computation as in-flight. -/
def sfCs1 : Fin 1 → CallerPC Nat :=
  Function.update (fun _ => CallerPC.start) 0 CallerPC.computing

/-- Intermediate state of the demonstration run. -/
def sfS1 : SFState 1 Nat := ⟨none, true, sfCs1, 1⟩

/-- Final state of the demonstration run: the computation resolved to 42
and was delivered. -/
def sfS2 : SFState 1 Nat := ⟨some 42, false, broadcast sfCs1 42 0, 1⟩

/-- Witness for C1 on a concrete two-step run with one caller: the
compute count is exactly one and the caller received the computed
value. -/
theorem C1_single_flight_witness :
    sfS2.computeCount = 1 ∧
    ∀ i v, sfS2.callers i = CallerPC.done v → v = 42 :=
  C1_single_flight 42 (Nat.le_refl 1) sfS2
    (SFReach.step sfS1 sfS2
      (SFReach.step (sfInit 1 Nat) sfS1 SFReach.init
        (SFStep.beginCompute (fun _ => CallerPC.start) 0 0 rfl))
      (SFStep.complete none true sfCs1 1 0 (by decide)))
    (fun i => ⟨42, by fin_cases i; rfl⟩)
